import Mathlib

/-!
Verification of the trace-graph feedback-propagation engine, the response
parser and the text sanitizers of the Trace repository.

The repository snapshot carries only the API declarations of
`opto.trace.utils` (an `.rst` stub) and a notebook caller
(`docs/examples/basic/greeting.ipynb`).  The bodies of the propagation
engine, `parse_eqs_to_dict`, `escape_json_nested_quotes` and
`remove_non_ascii` are not part of the snapshot, so those operations are
modelled from the specification (each such definition says so in its doc
comment).  The notebook's `Agent.greet` body is present and is embedded
directly from the source.
-/

namespace Trace

/-! ## Feedback accumulators

Modelled from the spec: `feedback` is "a mapping from feedback-source
identity → feedback payload, accumulated during propagation (kept keyed by
source, never overwritten)".  We represent it as an association list from
source identity to the list of payloads delivered for that source; adding
payloads for a key appends to the key's list, never replacing it. -/

/-- A feedback accumulator: association list from feedback-source identity
to the payloads accumulated for that source. -/
abbrev Feedback := List (Nat × List String)

/-- Payloads recorded for source `k` (empty when `k` has no entry). -/
def fbGet : Feedback → Nat → List String
  | [], _ => []
  | e :: es, k => if e.1 = k then e.2 else fbGet es k

/-- Append payloads `vs` to the entry of source `k`, creating the entry if
absent.  Existing payloads are never overwritten. -/
def fbAdd : Feedback → Nat → List String → Feedback
  | [], k, vs => [(k, vs)]
  | e :: es, k, vs => if e.1 = k then (e.1, e.2 ++ vs) :: es else e :: fbAdd es k vs

/-- Modelled from the spec: `sum_feedback`-style merging of one node's
accumulated feedback entries into another accumulator, entry by entry,
keyed by the originating source identity. -/
def fbMerge (dst src : Feedback) : Feedback :=
  src.foldl (fun d e => fbAdd d e.1 e.2) dst

/-! ## Trace graph data model

Modelled from the spec (§3): a node holds a value, ordered parents, a
trainable flag, a producer and a feedback accumulator.  Node identities are
creation indices; the invariant "nodes are only created from
already-existing nodes" says every parent index is smaller than its
child's index, which is the acyclicity invariant of the data model. -/

/-- A trace-graph vertex (spec §3 `Node`). -/
@[ext]
structure Node where
  value : String
  parents : List Nat
  trainable : Bool
  producer : Option String
  feedback : Feedback

/-- The trace graph: `size` node identities `0, …, size - 1`; `nodes`
gives the node stored at each identity. -/
@[ext]
structure Graph where
  size : Nat
  nodes : Nat → Node

/-- The creation-order acyclicity invariant: every parent of a node was
created before it. -/
abbrev WF (g : Graph) : Prop :=
  ∀ i, i < g.size → ∀ p ∈ (g.nodes i).parents, p < i

/-- All nodes in scope carry an empty feedback accumulator. -/
abbrev CleanFb (g : Graph) : Prop :=
  ∀ j, j < g.size → (g.nodes j).feedback = []

/-- Replace the feedback accumulator of node `i` by `f` of its old value;
every other field and every other node is untouched. -/
def updFb (g : Graph) (i : Nat) (f : Feedback → Feedback) : Graph :=
  { g with
    nodes := fun j =>
      if j = i then { g.nodes i with feedback := f (g.nodes i).feedback }
      else g.nodes j }

/-! ## Backward feedback propagation

Modelled from the spec (§4.2): seed the caller's payload on the terminal
keyed by the terminal's own identity, then visit nodes in reverse
topological order (decreasing creation index), merging each visited node's
accumulated feedback into each of its parents. -/

/-- One visit of the reverse traversal: if node `i` holds feedback, merge
it into every parent of `i` (spec §4.2 step 3). -/
def propStep (g : Graph) (i : Nat) : Graph :=
  if (g.nodes i).feedback = [] then g
  else
    (g.nodes i).parents.foldl
      (fun gg p => updFb gg p (fun d => fbMerge d (g.nodes i).feedback)) g

/-- Visit identities `i, i - 1, …, 0` in order: a reverse topological
traversal under the creation-order invariant. -/
def propagateFrom (g : Graph) : Nat → Graph
  | 0 => propStep g 0
  | i + 1 => propagateFrom (propStep g (i + 1)) i

/-- Deposit the initial payload `f0` on terminal `t`, keyed by `t`'s own
identity (spec §4.2 step 2). -/
def seed (g : Graph) (t : Nat) (f0 : String) : Graph :=
  updFb g t (fun d => fbAdd d t [f0])

/-- Modelled from the spec: the backward pass (`optimizer.backward` in the
notebook).  Seeds `f0` at terminal `t` and sweeps the graph in reverse
topological order. -/
def backward (g : Graph) (t : Nat) (f0 : String) : Graph :=
  propagateFrom (seed g t f0) t

/-- Clear every node's feedback accumulator, leaving all structure (value,
parents, trainable, producer) unchanged.  Modelled from the spec:
`optimizer.zero_feedback` "resets feedback, not structure". -/
def zero_feedback (g : Graph) : Graph :=
  { g with nodes := fun j => { g.nodes j with feedback := [] } }

/-! ## Path counting

The arithmetic mirror of the sweep: `numPaths g t j` counts the distinct
parent chains from the terminal `t` down to `j`, computed by the same
reverse-topological recurrence the propagation engine follows. -/

/-- One visit of the counting sweep: node `i` donates its own path count
once per occurrence of a parent in its parent list. -/
def tallyStep (g : Graph) (c : Nat → Nat) (i : Nat) : Nat → Nat :=
  fun j => c j + (g.nodes i).parents.count j * c i

/-- Counting sweep over identities `i, i - 1, …, 0`. -/
def tallyFrom (g : Graph) : (Nat → Nat) → Nat → Nat → Nat
  | c, 0 => tallyStep g c 0
  | c, i + 1 => tallyFrom g (tallyStep g c (i + 1)) i

/-- The seed count: one path from the terminal to itself. -/
def seedCount (t : Nat) : Nat → Nat :=
  fun j => if j = t then 1 else 0

/-- Number of distinct parent chains from terminal `t` down to `j`. -/
def numPaths (g : Graph) (t : Nat) : Nat → Nat :=
  tallyFrom g (seedCount t) t

/-- The feedback accumulator held by a node whose path count from the
terminal is `c`: nothing when unreachable, otherwise one entry keyed by
the terminal holding one payload per path. -/
def fbOfCount (t : Nat) (f0 : String) (c : Nat) : Feedback :=
  if c = 0 then [] else [(t, List.replicate c f0)]

/-- `n` is an ancestor of `m` through the parent relation (reflexively):
some parent chain leads from `m` back to `n`. -/
inductive Ancestor (g : Graph) : Nat → Nat → Prop
  | refl (n : Nat) : Ancestor g n n
  | step {p k m : Nat} : p ∈ (g.nodes k).parents → Ancestor g k m → Ancestor g p m

/-- Two graphs with identical structure (size, values, parents, trainable
flags, producers); their feedback accumulators may differ. -/
def StructEq (g h : Graph) : Prop :=
  g.size = h.size ∧
    ∀ j, (g.nodes j).value = (h.nodes j).value ∧
      (g.nodes j).parents = (h.nodes j).parents ∧
      (g.nodes j).trainable = (h.nodes j).trainable ∧
      (g.nodes j).producer = (h.nodes j).producer

/-! ## Basic lemmas on feedback accumulators -/

theorem fbGet_fbAdd_same (d : Feedback) (k : Nat) (vs : List String) :
    fbGet (fbAdd d k vs) k = fbGet d k ++ vs := by
  induction d with
  | nil => simp [fbAdd, fbGet]
  | cons e es ih =>
    by_cases h : e.1 = k
    · simp [fbAdd, fbGet, h]
    · simp [fbAdd, fbGet, h, ih]

theorem fbGet_fbAdd_other (d : Feedback) (k k' : Nat) (vs : List String)
    (h : k' ≠ k) : fbGet (fbAdd d k vs) k' = fbGet d k' := by
  have hkk : k ≠ k' := fun he => h he.symm
  induction d with
  | nil => simp [fbAdd, fbGet, hkk]
  | cons e es ih =>
    by_cases he : e.1 = k
    · have hek : e.1 ≠ k' := by rw [he]; exact hkk
      simp [fbAdd, fbGet, he, hek, hkk]
    · by_cases he' : e.1 = k'
      · simp [fbAdd, fbGet, he, he', h]
      · simp [fbAdd, fbGet, he, he', ih]

theorem fbMerge_single (d : Feedback) (k : Nat) (vs : List String) :
    fbMerge d [(k, vs)] = fbAdd d k vs := rfl

theorem fbOfCount_pos (t : Nat) (f0 : String) {c : Nat} (hc : 0 < c) :
    fbOfCount t f0 c = [(t, List.replicate c f0)] := by
  simp [fbOfCount, Nat.pos_iff_ne_zero.mp hc]

theorem fbAdd_fbOfCount (t : Nat) (f0 : String) (a : Nat) {m : Nat} (hm : 0 < m) :
    fbAdd (fbOfCount t f0 a) t (List.replicate m f0) = fbOfCount t f0 (a + m) := by
  have ham : a + m ≠ 0 := by omega
  by_cases ha : a = 0
  · subst ha
    simp [fbOfCount, Nat.pos_iff_ne_zero.mp hm, fbAdd]
  · simp [fbOfCount, ha, ham, fbAdd, ← List.replicate_add]

theorem fbOfCount_ne_nil_iff (t : Nat) (f0 : String) (c : Nat) :
    fbOfCount t f0 c ≠ [] ↔ c ≠ 0 := by
  by_cases hc : c = 0 <;> simp [fbOfCount, hc]

theorem fbGet_fbOfCount_same (t : Nat) (f0 : String) (c : Nat) :
    fbGet (fbOfCount t f0 c) t = List.replicate c f0 := by
  by_cases hc : c = 0 <;> simp [fbOfCount, fbGet, hc]

theorem fbGet_fbOfCount_other (t : Nat) (f0 : String) (c : Nat) (k : Nat)
    (h : k ≠ t) : fbGet (fbOfCount t f0 c) k = [] := by
  have htk : t ≠ k := fun he => h he.symm
  by_cases hc : c = 0 <;> simp [fbOfCount, fbGet, hc, htk]

/-! ## Basic lemmas on graph updates -/

theorem updFb_size (g : Graph) (i : Nat) (f : Feedback → Feedback) :
    (updFb g i f).size = g.size := rfl

theorem updFb_feedback (g : Graph) (i : Nat) (f : Feedback → Feedback) (j : Nat) :
    ((updFb g i f).nodes j).feedback =
      if j = i then f ((g.nodes i).feedback) else (g.nodes j).feedback := by
  by_cases h : j = i <;> simp [updFb, h]

theorem updFb_structEq {g h : Graph} (i : Nat) (f : Feedback → Feedback)
    (hs : StructEq g h) : StructEq (updFb g i f) h := by
  refine ⟨hs.1, fun j => ?_⟩
  by_cases hj : j = i
  · subst hj
    simpa [updFb] using hs.2 j
  · simpa [updFb, hj] using hs.2 j

theorem structEq_refl (g : Graph) : StructEq g g :=
  ⟨rfl, fun _ => ⟨rfl, rfl, rfl, rfl⟩⟩

/-! ## The sweep invariant

The propagation sweep and the counting sweep stay in lockstep: a node
whose path count from the terminal is `c` holds exactly the accumulator
`fbOfCount t f0 c`. -/

theorem foldl_merge_tally (g0 : Graph) (t : Nat) (f0 : String) {m : Nat} (hm : 0 < m)
    (l : List Nat) :
    ∀ (g : Graph) (c : Nat → Nat),
      StructEq g g0 →
      (∀ j, j < g0.size → (g.nodes j).feedback = fbOfCount t f0 (c j)) →
      StructEq
        (l.foldl (fun gg p => updFb gg p (fun d => fbMerge d [(t, List.replicate m f0)])) g) g0 ∧
      ∀ j, j < g0.size →
        ((l.foldl (fun gg p => updFb gg p (fun d => fbMerge d [(t, List.replicate m f0)])) g).nodes
            j).feedback
          = fbOfCount t f0 (c j + l.count j * m) := by
  induction l with
  | nil =>
    intro g c hs hfb
    exact ⟨hs, fun j hj => by simpa using hfb j hj⟩
  | cons p l ih =>
    intro g c hs hfb
    have hg2 : StructEq (updFb g p (fun d => fbMerge d [(t, List.replicate m f0)])) g0 :=
      updFb_structEq p _ hs
    have hfb2 : ∀ j, j < g0.size →
        ((updFb g p (fun d => fbMerge d [(t, List.replicate m f0)])).nodes j).feedback
          = fbOfCount t f0 (if j = p then c p + m else c j) := by
      intro j hj
      rw [updFb_feedback]
      by_cases hjp : j = p
      · subst hjp
        rw [if_pos rfl, if_pos rfl, hfb j hj, fbMerge_single, fbAdd_fbOfCount t f0 _ hm]
      · rw [if_neg hjp, if_neg hjp]
        exact hfb j hj
    obtain ⟨h1, h2⟩ := ih (updFb g p (fun d => fbMerge d [(t, List.replicate m f0)]))
      (fun j => if j = p then c p + m else c j) hg2 hfb2
    refine ⟨h1, fun j hj => ?_⟩
    rw [List.foldl_cons, h2 j hj]
    congr 1
    rw [List.count_cons]
    by_cases hjp : j = p
    · subst hjp
      simp only [beq_self_eq_true, if_true]
      ring
    · have hpj : (p == j) = false := beq_eq_false_iff_ne.mpr fun h => hjp h.symm
      simp [hpj, hjp]

theorem propStep_tally (g0 : Graph) (t : Nat) (f0 : String)
    (i : Nat) (hi : i < g0.size) (g : Graph) (c : Nat → Nat)
    (hs : StructEq g g0)
    (hfb : ∀ j, j < g0.size → (g.nodes j).feedback = fbOfCount t f0 (c j)) :
    StructEq (propStep g i) g0 ∧
      ∀ j, j < g0.size →
        ((propStep g i).nodes j).feedback = fbOfCount t f0 (tallyStep g0 c i j) := by
  by_cases hc : c i = 0
  · have h0 : (g.nodes i).feedback = [] := by
      rw [hfb i hi, hc]; rfl
    rw [propStep, if_pos h0]
    refine ⟨hs, fun j hj => ?_⟩
    rw [hfb j hj]
    have hpar : (g0.nodes i).parents = (g.nodes i).parents := ((hs.2 i).2.1).symm
    simp [tallyStep, hc]
  · have hm : 0 < c i := Nat.pos_of_ne_zero hc
    have hne : (g.nodes i).feedback ≠ [] := by
      rw [hfb i hi, fbOfCount_pos t f0 hm]; simp
    rw [propStep, if_neg hne, hfb i hi, fbOfCount_pos t f0 hm, (hs.2 i).2.1]
    obtain ⟨h1, h2⟩ := foldl_merge_tally g0 t f0 hm ((g0.nodes i).parents) g c hs hfb
    refine ⟨h1, fun j hj => ?_⟩
    rw [h2 j hj]
    rfl

theorem propagateFrom_tally (g0 : Graph) (t : Nat) (f0 : String) :
    ∀ (i : Nat), i < g0.size →
      ∀ (g : Graph) (c : Nat → Nat), StructEq g g0 →
        (∀ j, j < g0.size → (g.nodes j).feedback = fbOfCount t f0 (c j)) →
        StructEq (propagateFrom g i) g0 ∧
          ∀ j, j < g0.size →
            ((propagateFrom g i).nodes j).feedback = fbOfCount t f0 (tallyFrom g0 c i j) := by
  intro i
  induction i with
  | zero =>
    intro hi g c hs hfb
    exact propStep_tally g0 t f0 0 hi g c hs hfb
  | succ i ih =>
    intro hi g c hs hfb
    obtain ⟨h1, h2⟩ := propStep_tally g0 t f0 (i + 1) hi g c hs hfb
    exact ih (Nat.lt_of_succ_lt hi) (propStep g (i + 1)) (tallyStep g0 c (i + 1)) h1 h2

/-- After the backward pass, every node in scope holds exactly one payload
copy per parent chain from the terminal, keyed by the terminal. -/
theorem backward_fbOfCount (g : Graph) (t : Nat) (f0 : String)
    (ht : t < g.size) (hclean : CleanFb g) :
    ∀ j, j < g.size →
      ((backward g t f0).nodes j).feedback = fbOfCount t f0 (numPaths g t j) := by
  have hseed : ∀ j, j < g.size →
      ((seed g t f0).nodes j).feedback = fbOfCount t f0 (seedCount t j) := by
    intro j hj
    rw [seed, updFb_feedback]
    by_cases hjt : j = t
    · subst hjt
      rw [if_pos rfl, hclean j hj]
      simp [seedCount, fbAdd, fbOfCount]
    · rw [if_neg hjt, hclean j hj]
      simp [seedCount, hjt, fbOfCount]
  have hs : StructEq (seed g t f0) g := updFb_structEq t _ (structEq_refl g)
  exact (propagateFrom_tally g t f0 t ht (seed g t f0) (seedCount t) hs hseed).2

/-! ## Path counts and ancestry -/

theorem tallyStep_mono (g : Graph) (c : Nat → Nat) (i j : Nat) :
    c j ≤ tallyStep g c i j :=
  Nat.le_add_right _ _

theorem tallyFrom_mono (g : Graph) :
    ∀ (i : Nat) (c : Nat → Nat) (j : Nat), c j ≤ tallyFrom g c i j := by
  intro i
  induction i with
  | zero => intro c j; exact tallyStep_mono g c 0 j
  | succ i ih =>
    intro c j
    exact Nat.le_trans (tallyStep_mono g c (i + 1) j) (ih (tallyStep g c (i + 1)) j)

theorem tallyStep_frozen (g : Graph) (hwf : WF g) (c : Nat → Nat) (i k : Nat)
    (hi : i < g.size) (hik : i < k) : tallyStep g c i k = c k := by
  have hk : k ∉ (g.nodes i).parents := fun hmem => absurd (hwf i hi k hmem) (by omega)
  simp [tallyStep, List.count_eq_zero.mpr hk]

theorem tallyFrom_frozen (g : Graph) (hwf : WF g) :
    ∀ (i : Nat), i < g.size → ∀ (c : Nat → Nat) (k : Nat), i < k →
      tallyFrom g c i k = c k := by
  intro i
  induction i with
  | zero => intro hi c k hik; exact tallyStep_frozen g hwf c 0 k hi hik
  | succ i ih =>
    intro hi c k hik
    rw [tallyFrom, ih (Nat.lt_of_succ_lt hi) (tallyStep g c (i + 1)) k (by omega)]
    exact tallyStep_frozen g hwf c (i + 1) k hi hik

theorem tallyFrom_step_pos (g : Graph) (hwf : WF g) :
    ∀ (i : Nat), i < g.size → ∀ (c : Nat → Nat) (k p : Nat), k ≤ i →
      p ∈ (g.nodes k).parents → 0 < tallyFrom g c i k → 0 < tallyFrom g c i p := by
  intro i
  induction i with
  | zero =>
    intro hi c k p hk hp _
    have hk0 : k = 0 := by omega
    subst hk0
    exact absurd (hwf 0 hi p hp) (Nat.not_lt_zero p)
  | succ i ih =>
    intro hi c k p hk hp hpos
    rcases Nat.lt_or_ge k (i + 1) with hk1 | hk1
    · rw [tallyFrom] at hpos ⊢
      exact ih (Nat.lt_of_succ_lt hi) (tallyStep g c (i + 1)) k p (by omega) hp hpos
    · have hk2 : k = i + 1 := by omega
      subst hk2
      have hstep : tallyStep g c (i + 1) (i + 1) = c (i + 1) := by
        have hnot : i + 1 ∉ (g.nodes (i + 1)).parents :=
          fun hmem => absurd (hwf (i + 1) hi (i + 1) hmem) (by omega)
        simp [tallyStep, List.count_eq_zero.mpr hnot]
      have hval : tallyFrom g c (i + 1) (i + 1) = c (i + 1) := by
        rw [tallyFrom,
          tallyFrom_frozen g hwf i (Nat.lt_of_succ_lt hi) (tallyStep g c (i + 1)) (i + 1)
            (by omega),
          hstep]
      rw [hval] at hpos
      have hcnt : 0 < (g.nodes (i + 1)).parents.count p := List.count_pos_iff.mpr hp
      have hcp : 0 < tallyStep g c (i + 1) p := by
        have hmul : 0 < (g.nodes (i + 1)).parents.count p * c (i + 1) :=
          Nat.mul_pos hcnt hpos
        rw [tallyStep]
        omega
      rw [tallyFrom]
      exact Nat.lt_of_lt_of_le hcp (tallyFrom_mono g i (tallyStep g c (i + 1)) p)

theorem tallyStep_sound (g : Graph) (t : Nat) (c : Nat → Nat) (i : Nat)
    (h : ∀ j, 0 < c j → Ancestor g j t) :
    ∀ j, 0 < tallyStep g c i j → Ancestor g j t := by
  intro j hj
  rw [tallyStep] at hj
  by_cases hcj : 0 < c j
  · exact h j hcj
  · have hcj0 : c j = 0 := by omega
    rw [hcj0, Nat.zero_add] at hj
    have hcnt : 0 < (g.nodes i).parents.count j := by
      rcases Nat.eq_zero_or_pos ((g.nodes i).parents.count j) with h0 | h0
      · rw [h0, Nat.zero_mul] at hj; omega
      · exact h0
    have hci : 0 < c i := by
      rcases Nat.eq_zero_or_pos (c i) with h0 | h0
      · rw [h0, Nat.mul_zero] at hj; omega
      · exact h0
    exact Ancestor.step (List.count_pos_iff.mp hcnt) (h i hci)

theorem tallyFrom_sound (g : Graph) (t : Nat) :
    ∀ (i : Nat) (c : Nat → Nat), (∀ j, 0 < c j → Ancestor g j t) →
      ∀ j, 0 < tallyFrom g c i j → Ancestor g j t := by
  intro i
  induction i with
  | zero => intro c hc j hj; exact tallyStep_sound g t c 0 hc j hj
  | succ i ih =>
    intro c hc j hj
    rw [tallyFrom] at hj
    exact ih (tallyStep g c (i + 1)) (tallyStep_sound g t c (i + 1) hc) j hj

theorem ancestor_le (g : Graph) (hwf : WF g) {n m : Nat} (h : Ancestor g n m) :
    m < g.size → n ≤ m := by
  induction h with
  | refl n => intro _; exact Nat.le_refl n
  | @step p k m hp _ ih =>
    intro hm
    have hk := ih hm
    have hks : k < g.size := Nat.lt_of_le_of_lt hk hm
    have := hwf k hks p hp
    omega

theorem numPaths_pos_of_ancestor (g : Graph) (hwf : WF g) {t n : Nat}
    (h : Ancestor g n t) : t < g.size → 0 < numPaths g t n := by
  induction h with
  | refl n =>
    intro _
    have h1 : seedCount n n = 1 := by simp [seedCount]
    have := tallyFrom_mono g n (seedCount n) n
    rw [numPaths]
    omega
  | @step p k m hp hanc ih =>
    intro hm
    have hk := ih hm
    have hkm : k ≤ m := ancestor_le g hwf hanc hm
    rw [numPaths] at hk ⊢
    exact tallyFrom_step_pos g hwf m hm (seedCount m) k p hkm hp hk

theorem ancestor_of_numPaths_pos (g : Graph) {t n : Nat}
    (h : 0 < numPaths g t n) : Ancestor g n t := by
  have hseed : ∀ j, 0 < seedCount t j → Ancestor g j t := by
    intro j hj
    have hjt : j = t := by
      by_contra hne
      simp [seedCount, hne] at hj
    subst hjt
    exact Ancestor.refl j
  exact tallyFrom_sound g t t (seedCount t) hseed n h

/-! ## A concrete diamond-shaped trace graph

Parameter nodes feed a shared child which feeds the terminal:
`0 → 1`, `0 → 2`, `1 → 3`, `2 → 3`; the terminal is node `3`. -/

def exParents : Nat → List Nat
  | 1 => [0]
  | 2 => [0]
  | 3 => [1, 2]
  | _ => []

def gEx : Graph :=
  { size := 4
    nodes := fun j =>
      { value := "v", parents := exParents j, trainable := true, producer := none,
        feedback := [] } }

/-- C1: backward propagation started at terminal `t` deposits feedback on a
node `n` if and only if `n` is an ancestor of `t` through the parent
relation; a node sharing no ancestor path with `t` receives no feedback. -/
theorem backward_reaches_iff_ancestor (g : Graph) (t : Nat) (f0 : String)
    (hwf : WF g) (ht : t < g.size) (hclean : CleanFb g)
    (n : Nat) (hn : n < g.size) :
    ((backward g t f0).nodes n).feedback ≠ [] ↔ Ancestor g n t := by
  rw [backward_fbOfCount g t f0 ht hclean n hn, fbOfCount_ne_nil_iff]
  constructor
  · intro h
    exact ancestor_of_numPaths_pos g (Nat.pos_of_ne_zero h)
  · intro h
    exact Nat.pos_iff_ne_zero.mp (numPaths_pos_of_ancestor g hwf h ht)

/-- Witness for C1 at the diamond graph: node `0` is reached from
terminal `3`. -/
theorem backward_reaches_iff_ancestor_witness :
    ((backward gEx 3 "bad").nodes 0).feedback ≠ [] ↔ Ancestor gEx 0 3 :=
  backward_reaches_iff_ancestor gEx 3 "bad" (by decide) (by decide) (by decide) 0 (by decide)

/-- C2: feedback is keyed by the originating source identity (the
terminal), one payload copy is preserved per distinct path where paths
reconverge, and adding to an accumulator appends to the key's entry,
never overwriting existing payloads or other keys. -/
theorem backward_feedback_keyed_and_preserved (g : Graph) (t : Nat) (f0 : String)
    (_hwf : WF g) (ht : t < g.size) (hclean : CleanFb g)
    (j : Nat) (hj : j < g.size) :
    fbGet ((backward g t f0).nodes j).feedback t = List.replicate (numPaths g t j) f0 ∧
    (∀ k, k ≠ t → fbGet ((backward g t f0).nodes j).feedback k = []) ∧
    (∀ d k vs, fbGet (fbAdd d k vs) k = fbGet d k ++ vs) ∧
    (∀ d k vs k', k' ≠ k → fbGet (fbAdd d k vs) k' = fbGet d k') := by
  refine ⟨?_, ?_, fun d k vs => fbGet_fbAdd_same d k vs,
    fun d k vs k' h => fbGet_fbAdd_other d k k' vs h⟩
  · rw [backward_fbOfCount g t f0 ht hclean j hj]
    exact fbGet_fbOfCount_same t f0 _
  · intro k hk
    rw [backward_fbOfCount g t f0 ht hclean j hj]
    exact fbGet_fbOfCount_other t f0 _ k hk

/-- Witness for C2 at the diamond graph: the shared ancestor `0` is reached
through two reconverging paths and holds one payload per path. -/
theorem backward_feedback_keyed_and_preserved_witness :
    fbGet ((backward gEx 3 "bad").nodes 0).feedback 3
      = List.replicate (numPaths gEx 3 0) "bad" :=
  (backward_feedback_keyed_and_preserved gEx 3 "bad" (by decide) (by decide) (by decide)
    0 (by decide)).1

/-- The diamond graph carrying stale feedback from a previous step. -/
def gExStale : Graph :=
  { size := 4
    nodes := fun j =>
      { value := "v", parents := exParents j, trainable := true, producer := none,
        feedback := [(0, ["stale"])] } }

/-- C3: `zero_feedback` clears every node's feedback accumulator while
leaving value, parents, trainable flag and producer unchanged, and a
backward pass run after it produces results identical to the same pass on
a graph that never held the prior step's feedback. -/
theorem zero_feedback_spec (g gc : Graph) (t : Nat) (f0 : String)
    (hs : StructEq g gc) (hclean : ∀ j, (gc.nodes j).feedback = []) :
    (∀ j, ((zero_feedback g).nodes j).feedback = [] ∧
      ((zero_feedback g).nodes j).value = (g.nodes j).value ∧
      ((zero_feedback g).nodes j).parents = (g.nodes j).parents ∧
      ((zero_feedback g).nodes j).trainable = (g.nodes j).trainable ∧
      ((zero_feedback g).nodes j).producer = (g.nodes j).producer) ∧
    backward (zero_feedback g) t f0 = backward gc t f0 := by
  have hz : zero_feedback g = gc := by
    have hn : (zero_feedback g).nodes = gc.nodes := by
      funext j
      obtain ⟨hv, hp, htr, hpr⟩ := hs.2 j
      exact Node.ext hv hp htr hpr (hclean j).symm
    exact Graph.ext hs.1 hn
  exact ⟨fun j => ⟨rfl, rfl, rfl, rfl, rfl⟩, by rw [hz]⟩

/-- Witness for C3: resetting the stale diamond graph and propagating
equals propagating on the never-touched diamond graph. -/
theorem zero_feedback_spec_witness :
    backward (zero_feedback gExStale) 3 "good" = backward gEx 3 "good" :=
  (zero_feedback_spec gExStale gEx 3 "good" ⟨rfl, fun _ => ⟨rfl, rfl, rfl, rfl⟩⟩
    (fun _ => rfl)).2

/-! ## Termination and cycle detection -/

/-- Executable check of the creation-order acyclicity invariant. -/
def wfB (g : Graph) : Bool :=
  (List.range g.size).all fun i => (g.nodes i).parents.all fun p => decide (p < i)

theorem wfB_iff (g : Graph) : wfB g = true ↔ WF g := by
  simp [wfB, WF, List.all_eq_true, List.mem_range]

/-- Diagnostic emitted when the traversal finds the acyclicity invariant
violated. -/
def cycleDiagnostic : String :=
  "cycle detected in trace graph: a node references a parent not created before it"

/-- Modelled from the spec (section 7): the backward pass guarded by cycle
detection; a detected cycle is fatal and aborts the step with a clear
diagnostic instead of looping. -/
def backwardChecked (g : Graph) (t : Nat) (f0 : String) : Except String Graph :=
  if wfB g then Except.ok (backward g t f0) else Except.error cycleDiagnostic

/-- The reverse sweep, additionally counting how many node visits it
performs before it stops. -/
def propagateFromCounted (g : Graph) : Nat → Graph × Nat
  | 0 => (propStep g 0, 1)
  | i + 1 =>
    let r := propagateFromCounted (propStep g (i + 1)) i
    (r.1, r.2 + 1)

theorem propagateFromCounted_spec :
    ∀ (i : Nat) (g : Graph), propagateFromCounted g i = (propagateFrom g i, i + 1) := by
  intro i
  induction i with
  | zero => intro g; rfl
  | succ i ih =>
    intro g
    rw [propagateFromCounted, ih (propStep g (i + 1))]
    rfl

/-- C8: on a finite acyclic graph the backward pass performs at most
`size` visits and completes; a violated acyclicity invariant makes the
checked pass abort with a diagnostic instead of looping. -/
theorem backward_termination_spec (g : Graph) (t : Nat) (f0 : String)
    (ht : t < g.size) :
    (propagateFromCounted (seed g t f0) t).2 ≤ g.size ∧
    (propagateFromCounted (seed g t f0) t).1 = backward g t f0 ∧
    (WF g → backwardChecked g t f0 = Except.ok (backward g t f0)) ∧
    (¬WF g → backwardChecked g t f0 = Except.error cycleDiagnostic) := by
  refine ⟨?_, ?_, ?_, ?_⟩
  · rw [propagateFromCounted_spec]
    simpa using ht
  · rw [propagateFromCounted_spec]
    rfl
  · intro hwf
    rw [backwardChecked, if_pos ((wfB_iff g).mpr hwf)]
  · intro hwf
    have hb : ¬wfB g = true := fun hc => hwf ((wfB_iff g).mp hc)
    rw [backwardChecked, if_neg hb]

/-- Witness for C8 at the diamond graph. -/
theorem backward_termination_spec_witness :
    (propagateFromCounted (seed gEx 3 "fb") 3).2 ≤ gEx.size ∧
    backwardChecked gEx 3 "fb" = Except.ok (backward gEx 3 "fb") :=
  ⟨(backward_termination_spec gEx 3 "fb" (by decide)).1,
    (backward_termination_spec gEx 3 "fb" (by decide)).2.2.1 (by decide)⟩

/-! ## Failure capture -/

/-- Modelled from the spec: the failure-capture interface — a captured
forward-execution failure is converted into a fresh node carrying the
failure description as its value (`e.exception_node` in the notebook),
appended to the graph with the failing operation's inputs as parents. -/
def exceptionNode (g : Graph) (desc : String) (ps : List Nat) : Graph :=
  { size := g.size + 1
    nodes := fun j =>
      if j = g.size then
        { value := desc, parents := ps, trainable := false, producer := none,
          feedback := [] }
      else g.nodes j }

/-- Modelled from the spec: a backward pass on a failed attempt — the
exception node becomes the terminal and the failure description the
payload; the propagation algorithm itself is `backward`, unchanged. -/
def backwardOnFailure (g : Graph) (desc : String) (ps : List Nat) : Graph :=
  backward (exceptionNode g desc ps) g.size desc

/-- C9: a captured failure becomes a node whose value is the failure
description, that node is the terminal of the backward pass, prior nodes
are untouched, the extended graph still satisfies the acyclicity
invariant, and the checked pass completes normally on it. -/
theorem failure_terminal_spec (g : Graph) (desc : String) (ps : List Nat)
    (hwf : WF g) (hps : ∀ p ∈ ps, p < g.size) :
    ((exceptionNode g desc ps).nodes g.size).value = desc ∧
    (∀ j, j < g.size → (exceptionNode g desc ps).nodes j = g.nodes j) ∧
    WF (exceptionNode g desc ps) ∧
    backwardOnFailure g desc ps = backward (exceptionNode g desc ps) g.size desc ∧
    backwardChecked (exceptionNode g desc ps) g.size desc
      = Except.ok (backwardOnFailure g desc ps) := by
  have hwfe : WF (exceptionNode g desc ps) := by
    intro i hi p hp
    by_cases hig : i = g.size
    · subst hig
      have : (exceptionNode g desc ps).nodes g.size =
          { value := desc, parents := ps, trainable := false, producer := none,
            feedback := [] } := by
        simp [exceptionNode]
      rw [this] at hp
      exact hps p hp
    · have hlt : i < g.size := by
        have hsz : (exceptionNode g desc ps).size = g.size + 1 := rfl
        rw [hsz] at hi
        omega
      have heq : (exceptionNode g desc ps).nodes i = g.nodes i := by
        simp [exceptionNode, hig]
      rw [heq] at hp
      exact hwf i hlt p hp
  refine ⟨by simp [exceptionNode], fun j hj => ?_, hwfe, rfl, ?_⟩
  · have hjg : j ≠ g.size := by omega
    simp [exceptionNode, hjg]
  · rw [backwardChecked, if_pos ((wfB_iff _).mpr hwfe)]
    rfl

/-- Witness for C9: the failing run on the diamond graph with the terminal
output as the failure point's input. -/
theorem failure_terminal_spec_witness :
    ((exceptionNode gEx "boom" [3]).nodes gEx.size).value = "boom" ∧
    backwardChecked (exceptionNode gEx "boom" [3]) gEx.size "boom"
      = Except.ok (backwardOnFailure gEx "boom" [3]) :=
  ⟨(failure_terminal_spec gEx "boom" [3] (by decide) (by decide)).1,
    (failure_terminal_spec gEx "boom" [3] (by decide) (by decide)).2.2.2.2⟩

/-! ## Response parser

Modelled from the spec (§4.3): `parse_eqs_to_dict` turns raw reply text
into a mapping from name to value.  Text is modelled as its character
list.  A logical line matches when it contains `=`; the name is the
trimmed text before the first `=`, the value the trimmed text after it,
kept verbatim (embedded `=` included).  Non-matching lines are skipped;
duplicate names are resolved by last occurrence wins. -/

/-- Whitespace stripped from the ends of names and values. -/
def isWs (c : Char) : Bool :=
  c == ' ' || c == '\t' || c == '\r'

/-- Strip leading and trailing whitespace. -/
def trim (s : List Char) : List Char :=
  ((s.dropWhile isWs).reverse.dropWhile isWs).reverse

/-- Split a text into its logical lines at newline characters. -/
def splitLines : List Char → List (List Char)
  | [] => [[]]
  | c :: cs =>
    match splitLines cs with
    | [] => [[]]
    | l :: ls => if c = '\n' then [] :: l :: ls else (c :: l) :: ls

/-- Modelled from the spec: parse one line of the shape `name = value`:
split at the first `=`, trim both sides, keep everything after the first
`=` verbatim in the value; a line with no `=` does not match. -/
def lineEntry (l : List Char) : Option (List Char × List Char) :=
  if '=' ∈ l then
    some (trim (l.takeWhile fun c => c != '='),
      trim ((l.dropWhile fun c => c != '=').drop 1))
  else none

/-- Insert into an association list, replacing the first binding of the
key in place, so that a later definition wins. -/
def dictInsert :
    List (List Char × List Char) → List Char → List Char → List (List Char × List Char)
  | [], k, v => [(k, v)]
  | e :: es, k, v => if e.1 = k then (k, v) :: es else e :: dictInsert es k v

/-- Lookup in an association list. -/
def dictGet : List (List Char × List Char) → List Char → Option (List Char)
  | [], _ => none
  | e :: es, k => if e.1 = k then some e.2 else dictGet es k

/-- The entries of all matching lines, in line order. -/
def parseEntries (text : List Char) : List (List Char × List Char) :=
  (splitLines text).filterMap lineEntry

/-- Modelled from the spec: `parse_eqs_to_dict` folds every matching
line's entry into the mapping; non-matching lines are silently skipped
and duplicate names are resolved by last occurrence wins. -/
def parse_eqs_to_dict (text : List Char) : List (List Char × List Char) :=
  (parseEntries text).foldl (fun d e => dictInsert d e.1 e.2) []

/-! ## Parser lemmas -/

theorem dictGet_dictInsert (d : List (List Char × List Char)) (k v k' : List Char) :
    dictGet (dictInsert d k v) k' = if k' = k then some v else dictGet d k' := by
  induction d with
  | nil =>
    by_cases h : k' = k
    · subst h; simp [dictInsert, dictGet]
    · have hk : k ≠ k' := fun hh => h hh.symm
      simp [dictInsert, dictGet, h, hk]
  | cons e es ih =>
    by_cases he : e.1 = k
    · by_cases h : k' = k
      · subst h; simp [dictInsert, dictGet, he]
      · have hk : k ≠ k' := fun hh => h hh.symm
        have he2 : e.1 ≠ k' := by rw [he]; exact hk
        simp [dictInsert, dictGet, he, he2, h, hk]
    · by_cases h : k' = k
      · subst h
        have he2 : e.1 ≠ k' := he
        simp [dictInsert, dictGet, he, he2, ih]
      · by_cases he2 : e.1 = k'
        · simp [dictInsert, dictGet, he, he2, h]
        · simp [dictInsert, dictGet, he, he2, h, ih]

theorem dictGet_foldl_insert :
    ∀ (es d : List (List Char × List Char)) (k : List Char),
      dictGet (es.foldl (fun a e => dictInsert a e.1 e.2) d) k
        = (es.reverse.find? (fun e => decide (e.1 = k))).elim (dictGet d k)
            (fun e => some e.2) := by
  intro es
  induction es with
  | nil => intro d k; rfl
  | cons e es ih =>
    intro d k
    rw [List.foldl_cons, ih, List.reverse_cons, List.find?_append]
    cases hfind : es.reverse.find? (fun x => decide (x.1 = k)) with
    | some x => simp [Option.or]
    | none =>
      by_cases hek : e.1 = k
      · simp [Option.or, List.find?_cons, hek, dictGet_dictInsert]
      · have hkk : k ≠ e.1 := fun hh => hek hh.symm
        simp [Option.or, List.find?_cons, hek, dictGet_dictInsert, hkk]

/-- C4: duplicate names resolve by last occurrence wins: the mapping binds
each name to the value of its last definition, and parsing the spec's
concrete three-line input yields exactly the two-entry mapping with `x0`
bound to its second definition. -/
theorem parse_last_wins (text k : List Char) :
    dictGet (parse_eqs_to_dict text) k
      = ((parseEntries text).reverse.find? (fun e => decide (e.1 = k))).map
          (fun e => e.2) ∧
    parse_eqs_to_dict ("x0 = 5\ny = hello world\nx0 = 7".data)
      = [("x0".data, "7".data), ("y".data, "hello world".data)] := by
  constructor
  · rw [parse_eqs_to_dict, dictGet_foldl_insert]
    cases (parseEntries text).reverse.find? (fun e => decide (e.1 = k)) <;> rfl
  · decide

theorem mem_dictInsert (d : List (List Char × List Char)) (k v : List Char)
    (e : List Char × List Char) (h : e ∈ dictInsert d k v) : e ∈ d ∨ e = (k, v) := by
  induction d with
  | nil => simp [dictInsert] at h; exact Or.inr h
  | cons x xs ih =>
    by_cases hx : x.1 = k
    · rw [dictInsert, if_pos hx] at h
      rcases List.mem_cons.mp h with h1 | h1
      · exact Or.inr h1
      · exact Or.inl (List.mem_cons_of_mem x h1)
    · rw [dictInsert, if_neg hx] at h
      rcases List.mem_cons.mp h with h1 | h1
      · exact Or.inl (h1 ▸ List.mem_cons_self x xs)
      · rcases ih h1 with h2 | h2
        · exact Or.inl (List.mem_cons_of_mem x h2)
        · exact Or.inr h2

theorem mem_foldl_insert :
    ∀ (es d : List (List Char × List Char)) (e : List Char × List Char),
      e ∈ es.foldl (fun a x => dictInsert a x.1 x.2) d → e ∈ d ∨ e ∈ es := by
  intro es
  induction es with
  | nil => intro d e h; exact Or.inl h
  | cons x xs ih =>
    intro d e h
    rw [List.foldl_cons] at h
    rcases ih (dictInsert d x.1 x.2) e h with h1 | h1
    · rcases mem_dictInsert d x.1 x.2 e h1 with h2 | h2
      · exact Or.inl h2
      · exact Or.inr (h2 ▸ Prod.mk.eta ▸ List.mem_cons_self x xs)
    · exact Or.inr (List.mem_cons_of_mem x h1)

/-- C5: the parser is total and tolerant: a text whose lines all fail to
match yields the empty mapping, the empty input yields the empty mapping,
and every entry of any parse result comes from a cleanly parsing line. -/
theorem parser_total_tolerant (text : List Char)
    (hnone : ∀ l ∈ splitLines text, lineEntry l = none) :
    parse_eqs_to_dict text = [] ∧
    parse_eqs_to_dict [] = [] ∧
    ∀ (t2 : List Char), ∀ e ∈ parse_eqs_to_dict t2, e ∈ parseEntries t2 := by
  refine ⟨?_, rfl, ?_⟩
  · rw [parse_eqs_to_dict, parseEntries, List.filterMap_eq_nil_iff.mpr hnone]
    rfl
  · intro t2 e he
    rcases mem_foldl_insert (parseEntries t2) [] e he with h | h
    · cases h
    · exact h

/-- Witness for C5: a text with no `=` anywhere parses to the empty
mapping without failing. -/
theorem parser_total_tolerant_witness :
    parse_eqs_to_dict ("no equations in this reply".data) = [] :=
  (parser_total_tolerant ("no equations in this reply".data) (by decide)).1

theorem splitLines_no_newline (s : List Char) (h : '\n' ∉ s) : splitLines s = [s] := by
  induction s with
  | nil => rfl
  | cons c cs ih =>
    have hc : ¬c = '\n' := fun hh => h (hh ▸ List.mem_cons_self c cs)
    have hcs : '\n' ∉ cs := fun hh => h (List.mem_cons_of_mem c hh)
    rw [splitLines, ih hcs]
    simp [hc]

theorem takeWhile_all_append {p : Char → Bool} (l1 l2 : List Char)
    (h : ∀ c ∈ l1, p c = true) :
    (l1 ++ l2).takeWhile p = l1 ++ l2.takeWhile p := by
  induction l1 with
  | nil => rfl
  | cons c cs ih =>
    have hc : p c = true := h c (List.mem_cons_self c cs)
    have hcs : ∀ x ∈ cs, p x = true := fun x hx => h x (List.mem_cons_of_mem c hx)
    simp [List.takeWhile_cons, hc, ih hcs]

theorem dropWhile_all_append {p : Char → Bool} (l1 l2 : List Char)
    (h : ∀ c ∈ l1, p c = true) :
    (l1 ++ l2).dropWhile p = l2.dropWhile p := by
  induction l1 with
  | nil => rfl
  | cons c cs ih =>
    have hc : p c = true := h c (List.mem_cons_self c cs)
    have hcs : ∀ x ∈ cs, p x = true := fun x hx => h x (List.mem_cons_of_mem c hx)
    simp [List.dropWhile_cons, hc, ih hcs]

/-- C6: a value containing an embedded `=` is taken verbatim after the
first `=` of the logical line: for a trimmed value, every character after
the first `=` (embedded `=` included) appears unmodified in the mapping. -/
theorem parse_embedded_eq_verbatim (name value : List Char)
    (hn : '=' ∉ name) (hnl : '\n' ∉ name) (hvl : '\n' ∉ value)
    (hv : trim value = value) :
    parse_eqs_to_dict (name ++ '=' :: value) = [(trim name, value)] := by
  have hwhole : '\n' ∉ name ++ '=' :: value := by
    intro hmem
    rcases List.mem_append.mp hmem with hm | hm
    · exact hnl hm
    · rcases List.mem_cons.mp hm with hm2 | hm2
      · exact absurd hm2.symm (by decide)
      · exact hvl hm2
  have hname : ∀ c ∈ name, (fun x => x != '=') c = true := by
    intro c hc
    have : c ≠ '=' := fun hh => hn (hh ▸ hc)
    simpa using this
  have hmemEq : '=' ∈ name ++ '=' :: value :=
    List.mem_append_right name (List.mem_cons_self '=' value)
  have htake : (name ++ '=' :: value).takeWhile (fun x => x != '=') = name := by
    rw [takeWhile_all_append name ('=' :: value) hname]
    simp [List.takeWhile_cons]
  have hdrop : (name ++ '=' :: value).dropWhile (fun x => x != '=') = '=' :: value := by
    rw [dropWhile_all_append name ('=' :: value) hname]
    simp [List.dropWhile_cons]
  have hline : lineEntry (name ++ '=' :: value) = some (trim name, value) := by
    rw [lineEntry, if_pos hmemEq, htake, hdrop]
    simp [hv]
  rw [parse_eqs_to_dict, parseEntries, splitLines_no_newline _ hwhole]
  simp [hline, dictInsert]

/-- Witness for C6: the value `a=b` with its embedded `=` survives
verbatim. -/
theorem parse_embedded_eq_verbatim_witness :
    parse_eqs_to_dict ("x".data ++ '=' :: "a=b".data) = [(trim "x".data, "a=b".data)] :=
  parse_embedded_eq_verbatim ("x".data) ("a=b".data) (by decide) (by decide) (by decide)
    (by decide)

/-! ## Sanitizers

Modelled from the spec (§4.4): two independent passes preparing a raw
textual payload for structured parsing. -/

/-- A character inside the portable (ASCII) text range. -/
def representable (c : Char) : Bool :=
  decide (c.toNat < 128)

/-- Modelled from the spec: `remove_non_ascii` strips characters outside
the portable text range before structured parsing. -/
def remove_non_ascii (s : List Char) : List Char :=
  s.filter representable

/-- Does the text begin with structural syntax (or end), so that a quote
right before it is a structural closing quote? -/
def isCloser : List Char → Bool
  | [] => true
  | c :: _ => c == ':' || c == ',' || c == '}' || c == '\n'

/-- Modelled from the spec: the quote-escaping pass walks the text
identifying quoted spans.  Inside a span a backslash escapes the next
character; a quote followed by structural syntax closes the span and is
left untouched; any other interior quote is escaped.  The two flags are
(inside-a-quoted-span, previous-character-was-an-escape). -/
def escAux : Bool → Bool → List Char → List Char
  | _, _, [] => []
  | inSpan, true, c :: cs => c :: escAux inSpan false cs
  | false, false, c :: cs => c :: escAux (c == '"') false cs
  | true, false, c :: cs =>
    if c = '\\' then c :: escAux true true cs
    else if c = '"' then
      if isCloser cs then c :: escAux false false cs
      else '\\' :: c :: escAux true false cs
    else c :: escAux true false cs

/-- Modelled from the spec: `escape_json_nested_quotes` escapes interior
quotes of quoted spans, leaving structural quotes untouched. -/
def escape_json_nested_quotes (s : List Char) : List Char :=
  escAux false false s

theorem isCloser_escAux (s : List Char) :
    isCloser (escAux false false s) = isCloser s := by
  cases s with
  | nil => rfl
  | cons c cs => rfl

theorem escAux_idem :
    ∀ (s : List Char) (inSpan esc : Bool),
      escAux inSpan esc (escAux inSpan esc s) = escAux inSpan esc s := by
  intro s
  induction s with
  | nil => intro inSpan esc; cases inSpan <;> cases esc <;> rfl
  | cons c cs ih =>
    intro inSpan esc
    cases inSpan with
    | false =>
      cases esc with
      | true => simp only [escAux]; rw [ih false false]
      | false => simp only [escAux]; rw [ih (c == '"') false]
    | true =>
      cases esc with
      | true => simp only [escAux]; rw [ih true false]
      | false =>
        by_cases hb : c = '\\'
        · subst hb
          rw [escAux, if_pos rfl, escAux, if_pos rfl, ih true true]
        · by_cases hq : c = '"'
          · subst hq
            by_cases hcl : isCloser cs
            · rw [escAux, if_neg hb, if_pos rfl, if_pos hcl]
              rw [escAux, if_neg hb, if_pos rfl,
                isCloser_escAux cs, if_pos hcl, ih false false]
            · have hcl2 : isCloser cs = false := Bool.eq_false_iff.mpr hcl
              rw [escAux, if_neg hb, if_pos rfl, if_neg hcl]
              have hbq : ('\\' : Char) = '\\' := rfl
              rw [escAux, if_pos hbq]
              rw [escAux]
              rw [ih true false]
          · rw [escAux, if_neg hb, if_neg hq]
            rw [escAux, if_neg hb, if_neg hq, ih true false]

theorem escAux_sublist :
    ∀ (s : List Char) (inSpan esc : Bool), s.Sublist (escAux inSpan esc s) := by
  intro s
  induction s with
  | nil => intro inSpan esc; cases inSpan <;> cases esc <;> simp [escAux]
  | cons c cs ih =>
    intro inSpan esc
    cases inSpan with
    | false =>
      cases esc with
      | true => exact List.Sublist.cons₂ c (ih false false)
      | false => exact List.Sublist.cons₂ c (ih (c == '"') false)
    | true =>
      cases esc with
      | true => exact List.Sublist.cons₂ c (ih true false)
      | false =>
        by_cases hb : c = '\\'
        · subst hb
          rw [escAux, if_pos rfl]
          exact List.Sublist.cons₂ '\\' (ih true true)
        · by_cases hq : c = '"'
          · subst hq
            by_cases hcl : isCloser cs
            · rw [escAux, if_neg hb, if_pos rfl, if_pos hcl]
              exact List.Sublist.cons₂ '"' (ih false false)
            · rw [escAux, if_neg hb, if_pos rfl, if_neg hcl]
              exact List.Sublist.cons '\\' (List.Sublist.cons₂ '"' (ih true false))
          · rw [escAux, if_neg hb, if_neg hq]
            exact List.Sublist.cons₂ c (ih true false)

theorem escAux_no_special (s : List Char) (h : ∀ c ∈ s, c ≠ '"' ∧ c ≠ '\\') :
    escAux false false s = s := by
  induction s with
  | nil => rfl
  | cons c cs ih =>
    obtain ⟨h1, _⟩ := h c (List.mem_cons_self c cs)
    have hq : (c == '"') = false := by simpa using h1
    rw [escAux, hq, ih (fun x hx => h x (List.mem_cons_of_mem c hx))]

/-- C7: both sanitizer passes are idempotent, are no-ops on already-clean
text, and never remove or alter characters of valid structural syntax:
the quote escaper only ever inserts escapes (the input is a sublist of
its output) and the character-removal pass preserves the multiplicity of
every representable character. -/
theorem sanitizer_spec (s : List Char) :
    escape_json_nested_quotes (escape_json_nested_quotes s)
      = escape_json_nested_quotes s ∧
    remove_non_ascii (remove_non_ascii s) = remove_non_ascii s ∧
    ((∀ c ∈ s, c ≠ '"' ∧ c ≠ '\\') → escape_json_nested_quotes s = s) ∧
    ((∀ c ∈ s, representable c = true) → remove_non_ascii s = s) ∧
    List.Sublist s (escape_json_nested_quotes s) ∧
    (∀ c, representable c = true → (remove_non_ascii s).count c = s.count c) := by
  refine ⟨escAux_idem s false false, ?_, escAux_no_special s, ?_, escAux_sublist s false false,
    ?_⟩
  · exact List.filter_eq_self.mpr fun a ha => List.of_mem_filter ha
  · intro h
    exact List.filter_eq_self.mpr h
  · intro c hc
    exact List.count_filter hc

/-- Witness for C7: both passes leave plain structural text untouched and
preserve its structural characters. -/
theorem sanitizer_spec_witness :
    escape_json_nested_quotes ("abc: 1".data) = "abc: 1".data ∧
    remove_non_ascii ("key: value".data) = "key: value".data ∧
    (remove_non_ascii ("a,b".data)).count ',' = ("a,b".data).count ',' :=
  ⟨(sanitizer_spec ("abc: 1".data)).2.2.1 (by decide),
    (sanitizer_spec ("key: value".data)).2.2.2.1 (by decide),
    (sanitizer_spec ("a,b".data)).2.2.2.2.2 ',' (by decide)⟩

/-! ## The notebook example agent

Embedded from `src/docs/examples/basic/greeting.ipynb`: the wrapped
operator `Agent.greet(self, lang, user_name)` has the body
`greeting = "Hola"; return f"{greeting}, {user_name}!"`. -/

/-- `Agent.greet` from the notebook, embedded from the source. -/
def greet (lang user_name : String) : String :=
  let greeting := "Hola"
  greeting ++ ", " ++ user_name ++ "!"

/-- C10: the produced greeting is independent of the `lang` argument: any
two language values give the same string, always of the form
`Hola, {user_name}!`, so `decide_lang`'s output has no effect on it. -/
theorem greet_lang_independent (lang1 lang2 user_name : String) :
    greet lang1 user_name = greet lang2 user_name ∧
    greet lang1 user_name = "Hola, " ++ user_name ++ "!" := by
  constructor
  · rfl
  · show ("Hola" ++ ", " ++ user_name ++ "!" : String) = "Hola, " ++ user_name ++ "!"
    have h : ("Hola" ++ ", " : String) = "Hola, " := rfl
    rw [h]

end Trace
